import Mathlib

/-!
# Formal model of `map_sdks.py`

A shallow embedding of the reconciliation engine of `map_sdks.py`:
the version normaliser (`_normalize_xcode_ver`, `_normalize_source_keys`),
the cross-reference engine (`cross_reference`, lines 590–652), the flat-output
aggregator (`_results_to_flat`, lines 659–672), the change detector and the
exit logic of `main` (lines 824–915).

Modelling conventions:
  * Python dicts are modelled as association lists in insertion order;
    `List.lookup` returns the first binding, which coincides with dict lookup
    because dict keys are unique.
  * Python `str.split(".")` is modelled by the structural function `splitDots`,
    `".".join` by `joinDots`, and `int(...)` (on the version-component strings
    this program feeds it) by `pyInt?`.
  * Python floats: every agreement ratio the program computes is a ratio of
    small integer counts, so the arithmetic is modelled exactly in `ℚ`;
    `round(x, 2)` is modelled by `pyRound2` (round half to even, as Python's
    built-in `round`; over the realisable ratios `a/b` with `b ≤ 8` every
    decimal tie is an exactly-representable binary float, so rational
    round-half-even agrees with the float computation).
  * `set(found_values.values())` is modelled by `List.dedup` of the value
    list: only its emptiness, cardinality and membership are consumed, and in
    the one-element branch `next(iter(unique_values))` is its unique member.
  * Provenance URLs (the `url` entries of the `sources` field, fed from the
    global `_VERSION_URLS` table that the network adapters mutate) are outside
    every claim and are not modelled; the `sources` field keeps the per-source
    displayed value (`found_values.get(s) or "—"`).
-/

namespace MapSdks

/-- The fixed source-priority list of `map_sdks.py` (index 0 = highest
authority). -/
def SOURCE_NAMES : List String :=
  ["local_xcodebuild", "apple_docs_json", "apple_support", "xcodereleases",
   "apple_archive_9", "apple_archive_47", "wikipedia_history", "wikipedia_xcode"]

/-- A raw source mapping `{xcode_version: sdk_version}`, as an association
list in dict insertion order. -/
abbrev SourceMap := List (String × String)

/-- Python `version.split(".")` on a list of characters. -/
def splitDotsAux : List Char → List (List Char)
  | [] => [[]]
  | c :: cs =>
      let rest := splitDotsAux cs
      if c = '.' then [] :: rest
      else
        match rest with
        | [] => [[c]]
        | r :: rs => (c :: r) :: rs

/-- Python `version.split(".")`. -/
def splitDots (v : String) : List String :=
  (splitDotsAux v.toList).map (fun cs => ⟨cs⟩)

/-- Python `".".join(parts)`. -/
def joinDots : List String → String
  | [] => ""
  | p :: ps => ps.foldl (fun acc q => acc ++ "." ++ q) p

/-- Accumulator loop for a run of decimal digits. -/
def parseDigitsAux : List Char → Nat → Option Nat
  | [], acc => some acc
  | c :: cs, acc =>
      if c.isDigit then parseDigitsAux cs (acc * 10 + (c.toNat - '0'.toNat))
      else none

/-- Python `int(s)` for the version-component strings this program feeds it:
an optional sign followed by at least one decimal digit; anything else raises
`ValueError`, modelled as `none`. -/
def pyInt? (s : String) : Option Int :=
  match s.toList with
  | [] => none
  | '-' :: rest =>
      match rest with
      | [] => none
      | _ => (parseDigitsAux rest 0).map (fun n => -(n : Int))
  | '+' :: rest =>
      match rest with
      | [] => none
      | _ => (parseDigitsAux rest 0).map (fun n => (n : Int))
  | cs => (parseDigitsAux cs 0).map (fun n => (n : Int))

/-- `_normalize_xcode_ver` (line 94): a bare major version becomes `X.0`
(`ver if "." in ver else ver + ".0"`). -/
def _normalize_xcode_ver (ver : String) : String :=
  if ver.toList.contains '.' then ver else ver ++ ".0"

/-- The loop of `_normalize_source_keys` (lines 99–104):
`out.setdefault(norm(ver), sdk)` inserts only when the normalised key is not
yet present, appending at the end (dict insertion order). -/
def _normalize_source_keys_aux (out : List (String × String)) :
    List (String × String) → List (String × String)
  | [] => out
  | p :: rest =>
      let k := _normalize_xcode_ver p.1
      if (out.lookup k).isSome then _normalize_source_keys_aux out rest
      else _normalize_source_keys_aux (out ++ [(k, p.2)]) rest

/-- `_normalize_source_keys`: a copy of `data` with every key passed through
`_normalize_xcode_ver`, the first binding of each normalised key winning. -/
def _normalize_source_keys (data : List (String × String)) : List (String × String) :=
  _normalize_source_keys_aux [] data

/-- The per-source lookup of `cross_reference` (lines 594–599): look
`xcode_ver` up directly; if absent and the version has exactly three
dot-separated components, retry with the first two components
(`major.minor` fallback). -/
def lookupFB (src_data : SourceMap) (xcode_ver : String) : Option String :=
  match src_data.lookup xcode_ver with
  | some sdk => some sdk
  | none =>
      let parts := splitDots xcode_ver
      if parts.length = 3 then src_data.lookup (joinDots (parts.take 2))
      else none

/-- The `found_values` dict of `cross_reference` (lines 600–602): for each
source, in authority/iteration order, that reported a value, the pair
`(source name, value)`. -/
def foundValues (xcode_ver : String) (all_sources : List (String × SourceMap)) :
    List (String × String) :=
  all_sources.filterMap (fun p => (lookupFB p.2 xcode_ver).map (fun sdk => (p.1, sdk)))

/-- Python `round(q, 2)` scaled by 100: round half to even. -/
def pyRound2Int (q : ℚ) : ℤ :=
  let x := q * 100
  let f : ℤ := ⌊x⌋
  if x - f < 1 / 2 then f
  else if 1 / 2 < x - f then f + 1
  else if f % 2 = 0 then f else f + 1

/-- Python `round(q, 2)`. -/
def pyRound2 (q : ℚ) : ℚ := (pyRound2Int q : ℚ) / 100

/-- The displayed per-source value: `found_values.get(s) or "—"` (line 649). -/
def displayValue : Option String → String
  | some v => if v = "" then "—" else v
  | none => "—"

/-- One resolution record, as built by `cross_reference` (provenance URLs
omitted, see the module docstring). -/
structure ResRecord where
  xcode : String
  ios_sdk : Option String
  status : String
  chosen_from : Option String
  agreement : ℚ
  sources : List (String × String)
deriving DecidableEq, Repr

/-- The `sources` display map `{s: found_values.get(s) or "—" for s in all_sources}`. -/
def srcDisplay (xcode_ver : String) (all_sources : List (String × SourceMap)) :
    List (String × String) :=
  all_sources.map (fun p => (p.1, displayValue ((foundValues xcode_ver all_sources).lookup p.1)))

/-- The `not_found` record (lines 618–621). -/
def notFoundRecord (xcode_ver : String) (all_sources : List (String × SourceMap)) :
    ResRecord :=
  { xcode := xcode_ver, ios_sdk := none, status := "not_found",
    chosen_from := none, agreement := 0, sources := srcDisplay xcode_ver all_sources }

/-- The chosen source in the one-distinct-value branch (lines 627–630): the
first source in authority order whose reported value equals the unique value,
defensively falling back to the first reporting source. -/
def singleChosen (xcode_ver : String) (all_sources : List (String × SourceMap))
    (v : String) : String :=
  match SOURCE_NAMES.find? (fun s => (foundValues xcode_ver all_sources).lookup s == some v) with
  | some s => s
  | none => (((foundValues xcode_ver all_sources).head?).map Prod.fst).getD ""

/-- The record of the one-distinct-value branch (lines 623–631):
`consensus` when more than one source reported, else `single_source`;
agreement `round(1.0, 2)`. -/
def singleRecord (xcode_ver : String) (all_sources : List (String × SourceMap))
    (v : String) : ResRecord :=
  { xcode := xcode_ver, ios_sdk := some v,
    status := if 1 < (foundValues xcode_ver all_sources).length then "consensus"
              else "single_source",
    chosen_from := some (singleChosen xcode_ver all_sources v),
    agreement := pyRound2 1, sources := srcDisplay xcode_ver all_sources }

/-- The chosen source in the conflict branch (lines 634–637): the first source
in authority order that reported any value, defensively falling back to the
first reporting source. -/
def conflictChosen (xcode_ver : String) (all_sources : List (String × SourceMap)) :
    String :=
  match SOURCE_NAMES.find? (fun s => ((foundValues xcode_ver all_sources).lookup s).isSome) with
  | some s => s
  | none => (((foundValues xcode_ver all_sources).head?).map Prod.fst).getD ""

/-- `found_values[chosen_from]` (line 638). -/
def conflictSdk (xcode_ver : String) (all_sources : List (String × SourceMap)) : String :=
  ((foundValues xcode_ver all_sources).lookup (conflictChosen xcode_ver all_sources)).getD ""

/-- Lines 639–640: `n_agree / len(found_values)` (`0.0` if empty — dead
defensively, `found_values` is non-empty in this branch). -/
def conflictAgreement (xcode_ver : String) (all_sources : List (String × SourceMap)) : ℚ :=
  if (foundValues xcode_ver all_sources).isEmpty then 0
  else (((foundValues xcode_ver all_sources).filter
          (fun p => p.2 == conflictSdk xcode_ver all_sources)).length : ℚ) /
       ((foundValues xcode_ver all_sources).length : ℚ)

/-- The conflict record (lines 633–652). -/
def conflictRecord (xcode_ver : String) (all_sources : List (String × SourceMap)) :
    ResRecord :=
  { xcode := xcode_ver, ios_sdk := some (conflictSdk xcode_ver all_sources),
    status := "conflict", chosen_from := some (conflictChosen xcode_ver all_sources),
    agreement := pyRound2 (conflictAgreement xcode_ver all_sources),
    sources := srcDisplay xcode_ver all_sources }

/-- The cross-reference engine of `map_sdks.py` (lines 590–652): branch on the
number of distinct reported values. -/
def cross_reference (xcode_ver : String) (all_sources : List (String × SourceMap)) :
    ResRecord :=
  match ((foundValues xcode_ver all_sources).map Prod.snd).dedup with
  | [] => notFoundRecord xcode_ver all_sources
  | [v] => singleRecord xcode_ver all_sources v
  | _ => conflictRecord xcode_ver all_sources

/-- The sort key `ver_key` of `_results_to_flat` and `main`: the dot-separated
components as integers, or `[0]` when any component fails to parse. -/
def ver_key (v : String) : List Int :=
  match (splitDots v).mapM pyInt? with
  | some ks => ks
  | none => [0]

/-- Python's `list.__le__` on integer lists (lexicographic, a strict prefix
sorting first); `sorted(..., key=ver_key)` orders by this comparison of keys. -/
def verKeyLe : List Int → List Int → Bool
  | [], _ => true
  | _ :: _, [] => false
  | a :: as, b :: bs => decide (a < b) || (a == b && verKeyLe as bs)

/-- Python dict assignment `flat[k] = v`: replace in place when the key
exists, else append. -/
def dictInsert (m : List (String × String)) (k v : String) : List (String × String) :=
  if m.any (fun p => p.1 == k) then
    m.map (fun p => if p.1 == k then (p.1, v) else p)
  else m ++ [(k, v)]

/-- The loop body of `_results_to_flat`: keep a record's entry when
`r.get("ios_sdk")` is truthy (non-`None` and non-empty). -/
def flatStep (flat : List (String × String)) (r : ResRecord) : List (String × String) :=
  match r.ios_sdk with
  | some s => if s = "" then flat else dictInsert flat r.xcode s
  | none => flat

/-- `_results_to_flat` (lines 659–672): sort the records oldest-first by
`ver_key` (Python's `sorted` is a stable merge sort) and collect
`xcode → ios_sdk` for the records with a truthy `ios_sdk`. -/
def _results_to_flat (results : List ResRecord) : List (String × String) :=
  (results.mergeSort (fun a b => verKeyLe (ver_key a.xcode) (ver_key b.xcode))).foldl
    flatStep []

/-- Python `dict.__eq__` on the two flat mappings: same key set, same value at
every key (order irrelevant). -/
def pyDictEq (a b : List (String × String)) : Bool :=
  a.all (fun p => b.lookup p.1 == some p.2) && b.all (fun p => a.lookup p.1 == some p.2)

/-- The three states of the previously persisted `sdk_map.json`. -/
inductive PrevMap where
  | missing : PrevMap
  | unparsable : PrevMap
  | parsed : List (String × String) → PrevMap
deriving DecidableEq

/-- Lines 879–886 of `main`: `map_changed` is `True` unless a previous flat
mapping exists, parses, and equals the new one. -/
def computeMapChanged (prev : PrevMap) (flat_new : List (String × String)) : Bool :=
  match prev with
  | .missing => true
  | .unparsable => true
  | .parsed flat_old => !(pyDictEq flat_old flat_new)

/-- The argument `main` passes to `sys.exit`. -/
inductive ExitOutcome where
  | fatalMessage : String → ExitOutcome
  | code : Nat → ExitOutcome
deriving DecidableEq

/-- The process exit status produced by Python's `sys.exit`: an `int` argument
is the exit status; any other argument (such as an error-message string) is
printed to stderr and the exit status is `1`. -/
def exitStatus : ExitOutcome → Nat
  | .fatalMessage _ => 1
  | .code n => n

/-- Step 3 of `main` (lines 825–827): the set-union of the `xcodes`
enumeration and every source's keys (as a deduplicated list). -/
def buildUniverse (xcodes_versions : List String) (srcs : List (String × SourceMap)) :
    List String :=
  (xcodes_versions ++ (srcs.map (fun p => p.2.map Prod.fst)).flatten).dedup

/-- `sorted(all_versions, key=ver_key, reverse=True)` (line 838). -/
def sortedVersionsDesc (vers : List String) : List String :=
  vers.mergeSort (fun a b => verKeyLe (ver_key b) (ver_key a))

/-- Steps 3–5 of `main` (lines 824–915), from collected data to the `sys.exit`
argument: abort with the error-message string when the universe is empty
(line 830), otherwise cross-reference every version, build the flat mapping
and exit `1` when it changed, `0` when not (line 915). -/
def main_exit (xcodes_versions : List String) (srcs : List (String × SourceMap))
    (prev : PrevMap) : ExitOutcome :=
  let allVersions := buildUniverse xcodes_versions srcs
  if allVersions.isEmpty then
    .fatalMessage "ERROR: No Xcode versions found from any source. Check network."
  else
    let results := (sortedVersionsDesc allVersions).map (fun v => cross_reference v srcs)
    let flat_new := _results_to_flat results
    .code (if computeMapChanged prev flat_new then 1 else 0)

/-- The eight sources, all having failed (each contributes an empty map). -/
def emptySources : List (String × SourceMap) := SOURCE_NAMES.map (fun s => (s, []))

/-- Scenario fixture: the highest-authority source reports `"9.0" ↦ "17.2"`,
the next reports `"9.0" ↦ "17.0"`, the rest are empty. -/
def srcsC1 : List (String × SourceMap) :=
  [("local_xcodebuild", [("9.0", "17.2")]),
   ("apple_docs_json", [("9.0", "17.0")]),
   ("apple_support", []), ("xcodereleases", []), ("apple_archive_9", []),
   ("apple_archive_47", []), ("wikipedia_history", []), ("wikipedia_xcode", [])]

/-- Scenario fixture: three reporting sources, values `17.2`, `17.0`, `17.0`. -/
def srcsC3 : List (String × SourceMap) :=
  [("local_xcodebuild", [("9.0", "17.2")]),
   ("apple_docs_json", [("9.0", "17.0")]),
   ("apple_support", [("9.0", "17.0")]),
   ("xcodereleases", []), ("apple_archive_9", []),
   ("apple_archive_47", []), ("wikipedia_history", []), ("wikipedia_xcode", [])]

/-- Scenario fixture: one source reporting an empty-string SDK value. -/
def srcsC6 : List (String × SourceMap) := [("local_xcodebuild", [("9.0", "")])]

lemma toList_append (a b : String) : (a ++ b).toList = a.toList ++ b.toList := by
  simp [String.toList]

lemma normalize_contains_dot (v : String) :
    (_normalize_xcode_ver v).toList.contains '.' := by
  unfold _normalize_xcode_ver
  by_cases h : v.toList.contains '.' = true
  · rw [if_pos h]; exact h
  · rw [if_neg h]
    rw [toList_append]
    simp

lemma nsk_aux_lookup (data : List (String × String)) :
    ∀ (out : List (String × String)) (k : String),
      (_normalize_source_keys_aux out data).lookup k =
        (out.lookup k).or
          ((data.find? (fun p => _normalize_xcode_ver p.1 == k)).map Prod.snd) := by
  induction data with
  | nil => intro out k; simp [_normalize_source_keys_aux]
  | cons p rest ih =>
      intro out k
      unfold _normalize_source_keys_aux
      by_cases hin : (out.lookup (_normalize_xcode_ver p.1)).isSome
      · rw [if_pos hin, ih]
        simp only [List.find?_cons]
        cases hk : (_normalize_xcode_ver p.1 == k) with
        | true =>
            have hk' : _normalize_xcode_ver p.1 = k := by simpa using hk
            obtain ⟨v, hv⟩ := Option.isSome_iff_exists.mp hin
            rw [hk'] at hv
            simp [hv]
        | false => simp
      · rw [if_neg hin, ih, List.lookup_append]
        simp only [List.find?_cons]
        cases hk : (_normalize_xcode_ver p.1 == k) with
        | true =>
            have hk' : _normalize_xcode_ver p.1 = k := by simpa using hk
            have hout := Option.not_isSome_iff_eq_none.mp hin
            simp [List.lookup_cons, ← hk', hout]
        | false =>
            have hk' : ¬ _normalize_xcode_ver p.1 = k := by simpa using hk
            have : (k == _normalize_xcode_ver p.1) = false :=
              beq_eq_false_iff_ne.mpr (Ne.symm hk')
            simp [List.lookup_cons, this]

lemma nsk_aux_mem (data : List (String × String)) :
    ∀ (out : List (String × String)) (p : String × String),
      p ∈ _normalize_source_keys_aux out data →
      p ∈ out ∨ ∃ q ∈ data, p.1 = _normalize_xcode_ver q.1 ∧ p.2 = q.2 := by
  induction data with
  | nil => intro out p hp; simp [_normalize_source_keys_aux] at hp; exact Or.inl hp
  | cons q rest ih =>
      intro out p hp
      unfold _normalize_source_keys_aux at hp
      by_cases hin : (out.lookup (_normalize_xcode_ver q.1)).isSome
      · rw [if_pos hin] at hp
        rcases ih out p hp with h | ⟨r, hr, h1, h2⟩
        · exact Or.inl h
        · exact Or.inr ⟨r, List.mem_cons_of_mem _ hr, h1, h2⟩
      · rw [if_neg hin] at hp
        rcases ih _ p hp with h | ⟨r, hr, h1, h2⟩
        · rcases List.mem_append.mp h with h | h
          · exact Or.inl h
          · simp at h
            exact Or.inr ⟨q, List.mem_cons_self q rest, by simp [h]⟩
        · exact Or.inr ⟨r, List.mem_cons_of_mem _ hr, h1, h2⟩

lemma mem_of_lookup_eq_some {l : List (String × String)} {k v : String}
    (h : l.lookup k = some v) : (k, v) ∈ l := by
  obtain ⟨l₁, l₂, rfl, -⟩ := List.lookup_eq_some_iff.mp h
  simp

lemma lookup_eq_some_of_mem {l : List (String × String)} {k v : String}
    (hnd : (l.map Prod.fst).Nodup) (h : (k, v) ∈ l) : l.lookup k = some v := by
  induction l with
  | nil => simp at h
  | cons p rest ih =>
      obtain ⟨q, w⟩ := p
      rw [List.map_cons, List.nodup_cons] at hnd
      obtain ⟨hq, hnd'⟩ := hnd
      rcases List.mem_cons.mp h with h | h
      · have h1 : k = q := congrArg Prod.fst h
        have h2 : v = w := congrArg Prod.snd h
        subst h1
        subst h2
        simp [List.lookup_cons]
      · have hne : q ≠ k := by
          intro hqk
          subst hqk
          exact hq (List.mem_map.mpr ⟨(q, v), h, rfl⟩)
        rw [List.lookup_cons]
        simp only [beq_eq_false_iff_ne.mpr (Ne.symm hne)]
        exact ih hnd' h

lemma pyDictEq_iff {a b : List (String × String)}
    (ha : (a.map Prod.fst).Nodup) (hb : (b.map Prod.fst).Nodup) :
    pyDictEq a b = true ↔ ∀ k, a.lookup k = b.lookup k := by
  unfold pyDictEq
  rw [Bool.and_eq_true, List.all_eq_true, List.all_eq_true]
  constructor
  · rintro ⟨h1, h2⟩ k
    cases hak : a.lookup k with
    | some v =>
        have hm := mem_of_lookup_eq_some hak
        have := h1 _ hm
        simp only [beq_iff_eq] at this
        exact this.symm
    | none =>
        cases hbk : b.lookup k with
        | some w =>
            have hm := mem_of_lookup_eq_some hbk
            have := h2 _ hm
            simp only [beq_iff_eq] at this
            rw [this] at hak
            exact absurd hak (by simp)
        | none => rfl
  · intro h
    constructor
    · intro p hp
      have : a.lookup p.1 = some p.2 := lookup_eq_some_of_mem ha (by simpa using hp)
      rw [← h p.1, this]
      simp
    · intro p hp
      have : b.lookup p.1 = some p.2 := lookup_eq_some_of_mem hb (by simpa using hp)
      rw [h p.1, this]
      simp

lemma foundValues_cons (v : String) (q : String × SourceMap)
    (rest : List (String × SourceMap)) :
    foundValues v (q :: rest) =
      match lookupFB q.2 v with
      | some sdk => (q.1, sdk) :: foundValues v rest
      | none => foundValues v rest := by
  unfold foundValues
  rw [List.filterMap_cons]
  cases lookupFB q.2 v <;> simp

lemma mem_foundValues {v : String} {srcs : List (String × SourceMap)}
    {p : String × String} :
    p ∈ foundValues v srcs ↔ ∃ m, (p.1, m) ∈ srcs ∧ lookupFB m v = some p.2 := by
  unfold foundValues
  rw [List.mem_filterMap]
  constructor
  · rintro ⟨⟨name, m⟩, hmem, hmap⟩
    cases hl : lookupFB m v with
    | none => rw [hl] at hmap; simp at hmap
    | some sdk =>
        rw [hl] at hmap
        simp only [Option.map_some', Option.some.injEq] at hmap
        subst hmap
        exact ⟨m, hmem, hl⟩
  · rintro ⟨m, hmem, hl⟩
    exact ⟨(p.1, m), hmem, by rw [hl]; rfl⟩

lemma foundValues_eq_nil_iff {v : String} {srcs : List (String × SourceMap)} :
    foundValues v srcs = [] ↔ ∀ p ∈ srcs, lookupFB p.2 v = none := by
  unfold foundValues
  rw [List.filterMap_eq_nil_iff]
  constructor
  · intro h p hp
    have := h p hp
    cases hl : lookupFB p.2 v with
    | none => rfl
    | some sdk => rw [hl] at this; simp at this
  · intro h p hp
    rw [h p hp]
    rfl

lemma foundValues_keys_sub {v : String} {srcs : List (String × SourceMap)}
    {p : String × String} (h : p ∈ foundValues v srcs) : p.1 ∈ srcs.map Prod.fst := by
  obtain ⟨m, hm, -⟩ := mem_foundValues.mp h
  exact List.mem_map.mpr ⟨(p.1, m), hm, rfl⟩

lemma foundValues_lookup_none {v name : String} {srcs : List (String × SourceMap)}
    (h : name ∉ srcs.map Prod.fst) : (foundValues v srcs).lookup name = none := by
  rw [List.lookup_eq_none_iff]
  intro p hp
  have hk := foundValues_keys_sub hp
  simp only [bne_iff_ne]
  intro e
  exact h (by rw [e]; exact hk)

lemma foundValues_lookup_eq {v name : String} {m : SourceMap}
    {srcs : List (String × SourceMap)} (hnd : (srcs.map Prod.fst).Nodup)
    (hmem : (name, m) ∈ srcs) :
    (foundValues v srcs).lookup name = lookupFB m v := by
  induction srcs with
  | nil => simp at hmem
  | cons q rest ih =>
      obtain ⟨qn, qm⟩ := q
      rw [List.map_cons, List.nodup_cons] at hnd
      obtain ⟨hq, hnd'⟩ := hnd
      rcases List.mem_cons.mp hmem with h | h
      · have h1 : name = qn := congrArg Prod.fst h
        have h2 : m = qm := congrArg Prod.snd h
        subst h1
        subst h2
        rw [foundValues_cons]
        cases hl : lookupFB m v with
        | none => exact foundValues_lookup_none (by simpa using hq)
        | some sdk => simp [List.lookup_cons]
      · have hne : qn ≠ name := by
          intro e
          subst e
          exact hq (List.mem_map.mpr ⟨(qn, m), h, rfl⟩)
        rw [foundValues_cons]
        cases hl : lookupFB qm v with
        | none => exact ih hnd' h
        | some sdk =>
            rw [List.lookup_cons]
            simp only [beq_eq_false_iff_ne.mpr (Ne.symm hne)]
            exact ih hnd' h

lemma eq_singleton_of_nodup_all_eq {α : Type} {l : List α} {a : α}
    (hnd : l.Nodup) (hne : l ≠ []) (hall : ∀ x ∈ l, x = a) : l = [a] := by
  match l, hnd, hne with
  | [x], _, _ => rw [hall x (by simp)]
  | x :: y :: t, hnd, _ =>
      exfalso
      rw [List.nodup_cons] at hnd
      exact hnd.1 (by rw [hall x (by simp), hall y (by simp)]; simp)

lemma dedup_eq_singleton_iff {α : Type} [DecidableEq α] {l : List α} {a : α} :
    l.dedup = [a] ↔ a ∈ l ∧ ∀ x ∈ l, x = a := by
  constructor
  · intro h
    refine ⟨List.mem_dedup.mp (by rw [h]; simp), fun x hx => ?_⟩
    have : x ∈ l.dedup := List.mem_dedup.mpr hx
    rw [h] at this
    simpa using this
  · rintro ⟨ha, hall⟩
    exact eq_singleton_of_nodup_all_eq (List.nodup_dedup l)
      (fun e => by rw [List.dedup_eq_nil] at e; rw [e] at ha; simp at ha)
      (fun x hx => hall x (List.mem_dedup.mp hx))

lemma dedup_two_iff {α : Type} [DecidableEq α] {l : List α} :
    (∃ b c t, l.dedup = b :: c :: t) ↔ ∃ x ∈ l, ∃ y ∈ l, x ≠ y := by
  constructor
  · rintro ⟨b, c, t, h⟩
    have hnd := List.nodup_dedup l
    rw [h, List.nodup_cons] at hnd
    refine ⟨b, List.mem_dedup.mp (by rw [h]; simp), c, List.mem_dedup.mp (by rw [h]; simp), ?_⟩
    intro e
    exact hnd.1 (by rw [e]; simp)
  · rintro ⟨x, hx, y, hy, hxy⟩
    rcases h : l.dedup with _ | ⟨b, _ | ⟨c, t⟩⟩
    · rw [List.dedup_eq_nil] at h
      rw [h] at hx
      simp at hx
    · exfalso
      have h1 := dedup_eq_singleton_iff.mp h
      exact hxy ((h1.2 x hx).trans (h1.2 y hy).symm)
    · exact ⟨b, c, t, rfl⟩

lemma cross_reference_of_nil {v : String} {srcs : List (String × SourceMap)}
    (h : ((foundValues v srcs).map Prod.snd).dedup = []) :
    cross_reference v srcs = notFoundRecord v srcs := by
  unfold cross_reference
  rw [h]

lemma cross_reference_of_single {v : String} {srcs : List (String × SourceMap)}
    {x : String} (h : ((foundValues v srcs).map Prod.snd).dedup = [x]) :
    cross_reference v srcs = singleRecord v srcs x := by
  unfold cross_reference
  rw [h]

lemma cross_reference_of_two {v : String} {srcs : List (String × SourceMap)}
    {x y : String} {t : List String}
    (h : ((foundValues v srcs).map Prod.snd).dedup = x :: y :: t) :
    cross_reference v srcs = conflictRecord v srcs := by
  unfold cross_reference
  rw [h]

lemma fv_ne_nil_of_dedup_ne_nil (v : String) (srcs : List (String × SourceMap))
    (h : ((foundValues v srcs).map Prod.snd).dedup ≠ []) : foundValues v srcs ≠ [] := by
  intro e
  rw [e] at h
  simp at h

lemma status_not_found_iff {v : String} {srcs : List (String × SourceMap)} :
    (cross_reference v srcs).status = "not_found" ↔ foundValues v srcs = [] := by
  rcases h : ((foundValues v srcs).map Prod.snd).dedup with _ | ⟨x, _ | ⟨y, t⟩⟩
  · rw [cross_reference_of_nil h]
    have hfv : foundValues v srcs = [] := by
      have := (List.dedup_eq_nil _).mp h
      exact List.map_eq_nil_iff.mp this
    simp [notFoundRecord, hfv]
  · rw [cross_reference_of_single h]
    have hne := fv_ne_nil_of_dedup_ne_nil v srcs (by rw [h]; simp)
    simp only [singleRecord]
    constructor
    · intro hst
      split at hst <;> simp at hst
    · intro hfv
      exact absurd hfv hne
  · rw [cross_reference_of_two h]
    have hne := fv_ne_nil_of_dedup_ne_nil v srcs (by rw [h]; simp)
    simp only [conflictRecord]
    constructor
    · intro hst
      simp at hst
    · intro hfv
      exact absurd hfv hne

lemma status_single_source_iff {v : String} {srcs : List (String × SourceMap)} :
    (cross_reference v srcs).status = "single_source" ↔
      (foundValues v srcs).length = 1 := by
  rcases h : ((foundValues v srcs).map Prod.snd).dedup with _ | ⟨x, _ | ⟨y, t⟩⟩
  · rw [cross_reference_of_nil h]
    have hfv : foundValues v srcs = [] := by
      have := (List.dedup_eq_nil _).mp h
      exact List.map_eq_nil_iff.mp this
    simp [notFoundRecord, hfv]
  · rw [cross_reference_of_single h]
    have hne := fv_ne_nil_of_dedup_ne_nil v srcs (by rw [h]; simp)
    have hlen : 1 ≤ (foundValues v srcs).length := by
      rcases List.exists_mem_of_ne_nil _ hne with ⟨p, hp⟩
      exact List.length_pos.mpr hne
    simp only [singleRecord]
    by_cases h1 : 1 < (foundValues v srcs).length
    · rw [if_pos h1]
      constructor
      · intro hst; simp at hst
      · intro hl; omega
    · rw [if_neg h1]
      constructor
      · intro _; omega
      · intro _; trivial
  · rw [cross_reference_of_two h]
    have hsub : List.Sublist (x :: y :: t) ((foundValues v srcs).map Prod.snd) := by
      rw [← h]
      exact List.dedup_sublist _
    have hlen : 2 ≤ (foundValues v srcs).length := by
      have := hsub.length_le
      simp at this
      omega
    simp only [conflictRecord]
    constructor
    · intro hst; simp at hst
    · intro hl; omega

lemma status_consensus_iff {v : String} {srcs : List (String × SourceMap)} :
    (cross_reference v srcs).status = "consensus" ↔
      2 ≤ (foundValues v srcs).length ∧
        ∀ p ∈ foundValues v srcs, ∀ q ∈ foundValues v srcs, p.2 = q.2 := by
  rcases h : ((foundValues v srcs).map Prod.snd).dedup with _ | ⟨x, _ | ⟨y, t⟩⟩
  · rw [cross_reference_of_nil h]
    have hfv : foundValues v srcs = [] := by
      have := (List.dedup_eq_nil _).mp h
      exact List.map_eq_nil_iff.mp this
    simp [notFoundRecord, hfv]
  · rw [cross_reference_of_single h]
    have hall : ∀ p ∈ foundValues v srcs, p.2 = x := by
      intro p hp
      exact (dedup_eq_singleton_iff.mp h).2 p.2 (List.mem_map.mpr ⟨p, hp, rfl⟩)
    simp only [singleRecord]
    by_cases h1 : 1 < (foundValues v srcs).length
    · rw [if_pos h1]
      constructor
      · intro _
        exact ⟨h1, fun p hp q hq => (hall p hp).trans (hall q hq).symm⟩
      · intro _; trivial
    · rw [if_neg h1]
      constructor
      · intro hst; simp at hst
      · intro ⟨h2, _⟩; omega
  · rw [cross_reference_of_two h]
    obtain ⟨xv, hxv, yv, hyv, hne⟩ := dedup_two_iff.mp ⟨x, y, t, h⟩
    obtain ⟨p, hp, hpv⟩ := List.mem_map.mp hxv
    obtain ⟨q, hq, hqv⟩ := List.mem_map.mp hyv
    simp only [conflictRecord]
    constructor
    · intro hst; simp at hst
    · intro ⟨_, hall⟩
      exact absurd (hpv ▸ hqv ▸ hall p hp q hq) hne

lemma status_conflict_iff {v : String} {srcs : List (String × SourceMap)} :
    (cross_reference v srcs).status = "conflict" ↔
      ∃ p ∈ foundValues v srcs, ∃ q ∈ foundValues v srcs, p.2 ≠ q.2 := by
  rcases h : ((foundValues v srcs).map Prod.snd).dedup with _ | ⟨x, _ | ⟨y, t⟩⟩
  · rw [cross_reference_of_nil h]
    have hfv : foundValues v srcs = [] := by
      have := (List.dedup_eq_nil _).mp h
      exact List.map_eq_nil_iff.mp this
    simp [notFoundRecord, hfv]
  · rw [cross_reference_of_single h]
    have hall : ∀ p ∈ foundValues v srcs, p.2 = x := by
      intro p hp
      exact (dedup_eq_singleton_iff.mp h).2 p.2 (List.mem_map.mpr ⟨p, hp, rfl⟩)
    simp only [singleRecord]
    constructor
    · intro hst
      split at hst <;> simp at hst
    · rintro ⟨p, hp, q, hq, hne⟩
      exact absurd ((hall p hp).trans (hall q hq).symm) hne
  · rw [cross_reference_of_two h]
    obtain ⟨xv, hxv, yv, hyv, hne⟩ := dedup_two_iff.mp ⟨x, y, t, h⟩
    obtain ⟨p, hp, hpv⟩ := List.mem_map.mp hxv
    obtain ⟨q, hq, hqv⟩ := List.mem_map.mp hyv
    simp only [conflictRecord]
    constructor
    · intro _
      exact ⟨p, hp, q, hq, by rw [hpv, hqv]; exact hne⟩
    · intro _; trivial

lemma conflictSdk_lookup {v : String} {srcs : List (String × SourceMap)}
    (hne : foundValues v srcs ≠ []) :
    (foundValues v srcs).lookup (conflictChosen v srcs) =
      some (conflictSdk v srcs) := by
  unfold conflictSdk conflictChosen
  cases hf : SOURCE_NAMES.find? (fun s => ((foundValues v srcs).lookup s).isSome) with
  | some s =>
      have hp := List.find?_some hf
      obtain ⟨w, hw⟩ := Option.isSome_iff_exists.mp hp
      simp only [hf]
      rw [hw]
      rfl
  | none =>
      simp only [hf]
      rcases he : foundValues v srcs with _ | ⟨⟨k, w⟩, rest⟩
      · exact absurd he hne
      · simp [List.lookup_cons]

lemma pyRound2Int_ge (q : ℚ) : ⌊q * 100⌋ ≤ pyRound2Int q := by
  unfold pyRound2Int
  simp only []
  split_ifs <;> omega

lemma pyRound2Int_le (q : ℚ) : pyRound2Int q ≤ ⌊q * 100⌋ + 1 := by
  unfold pyRound2Int
  simp only []
  split_ifs <;> omega

lemma pyRound2_nonneg {q : ℚ} (h : 0 ≤ q) : 0 ≤ pyRound2 q := by
  have h1 : (0 : ℤ) ≤ ⌊q * 100⌋ := Int.le_floor.mpr (by push_cast; linarith)
  have h2 := pyRound2Int_ge q
  have h3 : (0 : ℚ) ≤ (pyRound2Int q : ℚ) := by exact_mod_cast le_trans h1 h2
  unfold pyRound2
  positivity

lemma pyRound2_le_one {q : ℚ} (h : q ≤ 1) : pyRound2 q ≤ 1 := by
  have hfl : ⌊q * 100⌋ ≤ 100 := by
    have : ⌊q * 100⌋ ≤ ⌊(100 : ℚ)⌋ := Int.floor_le_floor (by linarith)
    simpa using this
  by_cases h100 : ⌊q * 100⌋ ≤ 99
  · have h2 := pyRound2Int_le q
    have h3 : (pyRound2Int q : ℚ) ≤ 100 := by exact_mod_cast le_trans h2 (by omega)
    unfold pyRound2
    linarith
  · have hf : ⌊q * 100⌋ = 100 := by omega
    have hfr : q * 100 - (⌊q * 100⌋ : ℚ) < 1 / 2 := by
      rw [hf]
      push_cast
      linarith
    have hval : pyRound2Int q = 100 := by
      unfold pyRound2Int
      rw [if_pos hfr, hf]
    unfold pyRound2
    rw [hval]
    norm_num

lemma pyRound2_pos {q : ℚ} (h : 1 / 8 ≤ q) : 0 < pyRound2 q := by
  have h1 : (12 : ℤ) ≤ ⌊q * 100⌋ := Int.le_floor.mpr (by push_cast; linarith)
  have h2 := pyRound2Int_ge q
  have h3 : (12 : ℚ) ≤ (pyRound2Int q : ℚ) := by exact_mod_cast le_trans h1 h2
  unfold pyRound2
  linarith

lemma pyRound2_lt_one {q : ℚ} (h : q ≤ 7 / 8) : pyRound2 q < 1 := by
  have h1 : ⌊q * 100⌋ < 88 := Int.floor_lt.mpr (by push_cast; linarith)
  have h2 := pyRound2Int_le q
  have h3 : (pyRound2Int q : ℚ) ≤ 88 := by exact_mod_cast le_trans h2 (by omega)
  unfold pyRound2
  linarith

lemma pyRound2_one : pyRound2 1 = 1 := by
  norm_num [pyRound2, pyRound2Int]

lemma filter_length_lt {α : Type} (l : List α) (p : α → Bool) (x : α)
    (hx : x ∈ l) (hpx : ¬ p x) : (l.filter p).length < l.length := by
  induction l with
  | nil => simp at hx
  | cons y t ih =>
      rcases List.mem_cons.mp hx with h | h
      · subst h
        rw [List.filter_cons, if_neg (by simpa using hpx)]
        have := List.length_filter_le p t
        simp only [List.length_cons]
        omega
      · rw [List.filter_cons]
        split_ifs
        · simp only [List.length_cons]
          exact Nat.succ_lt_succ (ih h)
        · have := ih h
          simp only [List.length_cons]
          omega

lemma conflict_agreement_eq {v : String} {srcs : List (String × SourceMap)}
    (hne : foundValues v srcs ≠ []) :
    conflictAgreement v srcs =
      (((foundValues v srcs).filter
          (fun p => p.2 == conflictSdk v srcs)).length : ℚ) /
        ((foundValues v srcs).length : ℚ) := by
  unfold conflictAgreement
  rw [if_neg (by simpa using hne)]

lemma verKeyLe_total (a b : List Int) : verKeyLe a b || verKeyLe b a := by
  induction a generalizing b with
  | nil => simp [verKeyLe]
  | cons x as ih =>
      cases b with
      | nil => simp [verKeyLe]
      | cons y bs =>
          by_cases hxy : x < y
          · simp [verKeyLe, hxy]
          · by_cases hyx : y < x
            · simp [verKeyLe, hyx]
            · have hx : x = y := le_antisymm (not_lt.mp hyx) (not_lt.mp hxy)
              subst hx
              have h := ih bs
              simp only [verKeyLe, beq_self_eq_true, Bool.true_and, lt_irrefl,
                decide_eq_true_eq, decide_False, Bool.false_or]
              simpa using h

lemma verKeyLe_trans (a b c : List Int) (hab : verKeyLe a b = true)
    (hbc : verKeyLe b c = true) : verKeyLe a c = true := by
  induction a generalizing b c with
  | nil => simp [verKeyLe]
  | cons x as ih =>
      cases b with
      | nil => simp [verKeyLe] at hab
      | cons y bs =>
          cases c with
          | nil => simp [verKeyLe] at hbc
          | cons z cs =>
              simp only [verKeyLe, Bool.or_eq_true, decide_eq_true_eq,
                Bool.and_eq_true, beq_iff_eq] at hab hbc ⊢
              rcases hab with h1 | ⟨h1, h1a⟩ <;> rcases hbc with h2 | ⟨h2, h2a⟩
              · exact Or.inl (lt_trans h1 h2)
              · exact Or.inl (h2 ▸ h1)
              · exact Or.inl (h1 ▸ h2)
              · exact Or.inr ⟨h1.trans h2, ih bs cs h1a h2a⟩

lemma dictInsert_keys_of_mem {m : List (String × String)} {k : String} (v : String)
    (h : k ∈ m.map Prod.fst) :
    (dictInsert m k v).map Prod.fst = m.map Prod.fst := by
  unfold dictInsert
  rw [if_pos]
  · rw [List.map_map]
    refine List.map_congr_left ?_
    intro p _
    by_cases hp : p.1 = k
    · simp [hp]
    · simp [hp]
  · rw [List.any_eq_true]
    obtain ⟨p, hp, he⟩ := List.mem_map.mp h
    exact ⟨p, hp, by simp [he]⟩

lemma dictInsert_keys_of_not_mem {m : List (String × String)} {k : String} (v : String)
    (h : k ∉ m.map Prod.fst) :
    (dictInsert m k v).map Prod.fst = m.map Prod.fst ++ [k] := by
  unfold dictInsert
  rw [if_neg]
  · simp
  · rw [List.any_eq_true]
    rintro ⟨p, hp, he⟩
    exact h (List.mem_map.mpr ⟨p, hp, by simpa using he.symm⟩)

lemma mem_dictInsert {m : List (String × String)} {k v : String} {p : String × String}
    (h : p ∈ dictInsert m k v) : p ∈ m ∨ (p.1 = k ∧ p.2 = v) := by
  unfold dictInsert at h
  split_ifs at h
  · obtain ⟨q, hq, he⟩ := List.mem_map.mp h
    simp only [beq_iff_eq] at he
    by_cases hqk : q.1 = k
    · rw [if_pos hqk] at he
      right
      constructor
      · rw [← he]; exact hqk
      · rw [← he]
    · rw [if_neg hqk] at he
      exact Or.inl (he ▸ hq)
  · rcases List.mem_append.mp h with h | h
    · exact Or.inl h
    · right
      have : p = (k, v) := by simpa using h
      exact ⟨congrArg Prod.fst this, congrArg Prod.snd this⟩

lemma key_mem_dictInsert (m : List (String × String)) (k v : String) :
    k ∈ (dictInsert m k v).map Prod.fst := by
  by_cases h : k ∈ m.map Prod.fst
  · rw [dictInsert_keys_of_mem v h]; exact h
  · rw [dictInsert_keys_of_not_mem v h]; simp

lemma dictInsert_keys_superset {m : List (String × String)} {j : String} (k v : String)
    (h : j ∈ m.map Prod.fst) : j ∈ (dictInsert m k v).map Prod.fst := by
  by_cases hk : k ∈ m.map Prod.fst
  · rw [dictInsert_keys_of_mem v hk]; exact h
  · rw [dictInsert_keys_of_not_mem v hk]; exact List.mem_append_left _ h

lemma flatStep_none {acc : List (String × String)} {r : ResRecord}
    (h : r.ios_sdk = none) : flatStep acc r = acc := by
  unfold flatStep
  rw [h]

lemma flatStep_empty {acc : List (String × String)} {r : ResRecord}
    (h : r.ios_sdk = some "") : flatStep acc r = acc := by
  unfold flatStep
  rw [h]
  simp

lemma flatStep_some {acc : List (String × String)} {r : ResRecord} {s : String}
    (h : r.ios_sdk = some s) (hs : s ≠ "") :
    flatStep acc r = dictInsert acc r.xcode s := by
  unfold flatStep
  rw [h]
  show (if s = "" then acc else dictInsert acc r.xcode s) = _
  rw [if_neg hs]

lemma fold_mem (l : List ResRecord) :
    ∀ (acc : List (String × String)) (p : String × String),
      p ∈ l.foldl flatStep acc →
      p ∈ acc ∨ ∃ r ∈ l, r.xcode = p.1 ∧ r.ios_sdk = some p.2 ∧ p.2 ≠ "" := by
  induction l with
  | nil => intro acc p hp; exact Or.inl hp
  | cons r t ih =>
      intro acc p hp
      rw [List.foldl_cons] at hp
      rcases ih (flatStep acc r) p hp with h | ⟨r', hr', h1, h2, h3⟩
      · cases hio : r.ios_sdk with
        | none => rw [flatStep_none hio] at h; exact Or.inl h
        | some sdkv =>
            by_cases hs : sdkv = ""
            · rw [hs] at hio
              rw [flatStep_empty hio] at h
              exact Or.inl h
            · rw [flatStep_some hio hs] at h
              rcases mem_dictInsert h with h | ⟨h1, h2⟩
              · exact Or.inl h
              · exact Or.inr ⟨r, List.mem_cons_self r t, h1.symm,
                  by rw [hio, h2], by rw [h2]; exact hs⟩
      · exact Or.inr ⟨r', List.mem_cons_of_mem _ hr', h1, h2, h3⟩

lemma flatStep_keys_superset {acc : List (String × String)} {r : ResRecord}
    {k : String} (hk : k ∈ acc.map Prod.fst) : k ∈ (flatStep acc r).map Prod.fst := by
  cases hio : r.ios_sdk with
  | none => rw [flatStep_none hio]; exact hk
  | some sdkv =>
      by_cases hs : sdkv = ""
      · rw [hs] at hio
        rw [flatStep_empty hio]
        exact hk
      · rw [flatStep_some hio hs]
        exact dictInsert_keys_superset _ _ hk

lemma fold_keys_mono (l : List ResRecord) :
    ∀ (acc : List (String × String)) (k : String),
      k ∈ acc.map Prod.fst → k ∈ (l.foldl flatStep acc).map Prod.fst := by
  induction l with
  | nil => intro acc k hk; exact hk
  | cons r t ih =>
      intro acc k hk
      rw [List.foldl_cons]
      exact ih _ k (flatStep_keys_superset hk)

lemma fold_key_of_mem (l : List ResRecord) :
    ∀ (acc : List (String × String)) (r : ResRecord), r ∈ l →
      ∀ s : String, r.ios_sdk = some s → s ≠ "" →
      r.xcode ∈ (l.foldl flatStep acc).map Prod.fst := by
  induction l with
  | nil => intro _ r hr; simp at hr
  | cons q t ih =>
      intro acc r hr s hio hs
      rw [List.foldl_cons]
      rcases List.mem_cons.mp hr with h | h
      · subst h
        refine fold_keys_mono t _ _ ?_
        rw [flatStep_some hio hs]
        exact key_mem_dictInsert _ _ _
      · exact ih _ r h s hio hs

lemma fold_keys_structure (l : List ResRecord) :
    ∀ acc : List (String × String), ∃ d,
      (l.foldl flatStep acc).map Prod.fst = acc.map Prod.fst ++ d ∧
        List.Sublist d (l.map (fun r => r.xcode)) := by
  induction l with
  | nil => intro acc; exact ⟨[], by simp, by simp⟩
  | cons r t ih =>
      intro acc
      rw [List.foldl_cons, List.map_cons]
      cases hio : r.ios_sdk with
      | none =>
          rw [flatStep_none hio]
          obtain ⟨d, hd, hsub⟩ := ih acc
          exact ⟨d, hd, hsub.cons _⟩
      | some sdkv =>
          by_cases hs : sdkv = ""
          · rw [hs] at hio
            rw [flatStep_empty hio]
            obtain ⟨d, hd, hsub⟩ := ih acc
            exact ⟨d, hd, hsub.cons _⟩
          · rw [flatStep_some hio hs]
            by_cases hk : r.xcode ∈ acc.map Prod.fst
            · obtain ⟨d, hd, hsub⟩ := ih (dictInsert acc r.xcode sdkv)
              rw [dictInsert_keys_of_mem _ hk] at hd
              exact ⟨d, hd, hsub.cons _⟩
            · obtain ⟨d, hd, hsub⟩ := ih (dictInsert acc r.xcode sdkv)
              rw [dictInsert_keys_of_not_mem _ hk] at hd
              refine ⟨r.xcode :: d, ?_, hsub.cons₂ _⟩
              rw [hd, List.append_assoc]
              rfl

/-- C1: for every version whose resolution record has status `conflict`
(with the eight sources keyed in authority order, as `main` builds them), the
chosen source is the first source in `SOURCE_NAMES` that reported any value —
every strictly earlier source reported nothing — and the resolved SDK value is
exactly the value that chosen source reported (authority order, not majority
vote). -/
theorem C1_conflict_authority_order (v : String) (srcs : List (String × SourceMap))
    (hkeys : srcs.map Prod.fst = SOURCE_NAMES)
    (hst : (cross_reference v srcs).status = "conflict") :
    ∃ c pre post, SOURCE_NAMES = pre ++ c :: post ∧
      (cross_reference v srcs).chosen_from = some c ∧
      (∀ s ∈ pre, ∀ p ∈ srcs, p.1 = s → lookupFB p.2 v = none) ∧
      (∃ p ∈ srcs, p.1 = c ∧ lookupFB p.2 v ≠ none ∧
         (cross_reference v srcs).ios_sdk = lookupFB p.2 v) := by
  have hnd : (srcs.map Prod.fst).Nodup := by rw [hkeys]; decide
  obtain ⟨p0, hp0, q0, hq0, hpq0⟩ := status_conflict_iff.mp hst
  obtain ⟨a, b, t, hd⟩ := dedup_two_iff.mpr
    ⟨p0.2, List.mem_map.mpr ⟨p0, hp0, rfl⟩, q0.2, List.mem_map.mpr ⟨q0, hq0, rfl⟩, hpq0⟩
  have hne := fv_ne_nil_of_dedup_ne_nil v srcs (by rw [hd]; simp)
  -- the find? over SOURCE_NAMES succeeds
  have hsome : (SOURCE_NAMES.find?
      (fun s => ((foundValues v srcs).lookup s).isSome)).isSome := by
    rcases he : foundValues v srcs with _ | ⟨⟨k, w⟩, rest⟩
    · exact absurd he hne
    · rw [List.find?_isSome]
      refine ⟨k, ?_, ?_⟩
      · have : (k, w) ∈ foundValues v srcs := by rw [he]; simp
        have := foundValues_keys_sub this
        rwa [hkeys] at this
      · simp [List.lookup_cons]
  obtain ⟨c, hc⟩ := Option.isSome_iff_exists.mp hsome
  obtain ⟨hpredc, pre, post, hsplit, hprefail⟩ := List.find?_eq_some.mp hc
  have hchosen : conflictChosen v srcs = c := by
    unfold conflictChosen
    rw [hc]
  obtain ⟨w, hw⟩ := Option.isSome_iff_exists.mp hpredc
  have hsdk : conflictSdk v srcs = w := by
    unfold conflictSdk
    rw [hchosen, hw]
    rfl
  obtain ⟨m, hm, hl⟩ := mem_foundValues.mp (mem_of_lookup_eq_some hw)
  refine ⟨c, pre, post, hsplit, ?_, ?_, (c, m), hm, rfl, ?_, ?_⟩
  · rw [cross_reference_of_two hd]
    simp only [conflictRecord]
    rw [hchosen]
  · intro s hs p hp hps
    have hfail := hprefail s hs
    have hnone : (foundValues v srcs).lookup s = none := by
      cases hls : (foundValues v srcs).lookup s with
      | none => rfl
      | some u =>
          rw [hls] at hfail
          simp at hfail
    have : (s, p.2) ∈ srcs := by rw [← hps]; exact hp
    rw [← foundValues_lookup_eq hnd this, hnone]
  · rw [hl]
    simp
  · rw [cross_reference_of_two hd]
    simp only [conflictRecord]
    rw [hsdk, hl]

/-- Witness for C1, at the spec's scenario: the high-authority source maps
`"9.0" ↦ "17.2"`, a lower-authority one maps `"9.0" ↦ "17.0"`; the record is a
conflict resolved to `"17.2"` from `local_xcodebuild` with agreement `0.5`. -/
theorem C1_witness :
    (cross_reference "9.0" srcsC1).status = "conflict" ∧
    (cross_reference "9.0" srcsC1).ios_sdk = some "17.2" ∧
    (cross_reference "9.0" srcsC1).chosen_from = some "local_xcodebuild" ∧
    (cross_reference "9.0" srcsC1).agreement = 1 / 2 ∧
    (∃ c pre post, SOURCE_NAMES = pre ++ c :: post ∧
      (cross_reference "9.0" srcsC1).chosen_from = some c ∧
      (∀ s ∈ pre, ∀ p ∈ srcsC1, p.1 = s → lookupFB p.2 "9.0" = none) ∧
      (∃ p ∈ srcsC1, p.1 = c ∧ lookupFB p.2 "9.0" ≠ none ∧
         (cross_reference "9.0" srcsC1).ios_sdk = lookupFB p.2 "9.0")) := by
  refine ⟨by decide, by decide, by decide, ?_, ?_⟩
  · have h : (cross_reference "9.0" srcsC1).agreement = pyRound2 (1 / 2) := by
      simp +decide [cross_reference, foundValues, lookupFB, srcsC1, SOURCE_NAMES,
        conflictRecord, conflictAgreement, conflictSdk, conflictChosen]
    rw [h]
    norm_num [pyRound2, pyRound2Int]
  · exact C1_conflict_authority_order "9.0" srcsC1 (by decide) (by decide)

/-- C2: for every version and collection of source maps, the record's status
is `consensus` iff at least two sources reported (directly or via the
major.minor fallback) and all reported values are identical; `single_source`
iff exactly one source reported; `conflict` iff two sources reported distinct
values; and `not_found` iff no source reported. -/
theorem C2_status_classification (v : String) (srcs : List (String × SourceMap)) :
    ((cross_reference v srcs).status = "consensus" ↔
       2 ≤ (foundValues v srcs).length ∧
         ∀ p ∈ foundValues v srcs, ∀ q ∈ foundValues v srcs, p.2 = q.2) ∧
    ((cross_reference v srcs).status = "single_source" ↔
       (foundValues v srcs).length = 1) ∧
    ((cross_reference v srcs).status = "conflict" ↔
       ∃ p ∈ foundValues v srcs, ∃ q ∈ foundValues v srcs, p.2 ≠ q.2) ∧
    ((cross_reference v srcs).status = "not_found" ↔ foundValues v srcs = []) :=
  ⟨status_consensus_iff, status_single_source_iff, status_conflict_iff,
    status_not_found_iff⟩

/-- Witness for C2 at a concrete two-source conflict. -/
theorem C2_witness :
    (∃ p ∈ foundValues "9.0" srcsC1, ∃ q ∈ foundValues "9.0" srcsC1, p.2 ≠ q.2) ∧
    (cross_reference "9.0" srcsC1).status = "conflict" := by
  constructor
  · exact (C2_status_classification "9.0" srcsC1).2.2.1.mp (by decide)
  · decide

/-- Counterexample to C3 as stated: with three reporting sources and one
agreeing with the chosen value, the exact ratio is `1/3`, but the record
stores `round(1/3, 2) = 0.33 ≠ 1/3`. -/
theorem C3_counterexample :
    (cross_reference "9.0" srcsC3).status = "conflict" ∧
    (cross_reference "9.0" srcsC3).ios_sdk = some "17.2" ∧
    ((foundValues "9.0" srcsC3).filter (fun p => p.2 == "17.2")).length = 1 ∧
    (foundValues "9.0" srcsC3).length = 3 ∧
    (cross_reference "9.0" srcsC3).agreement = 33 / 100 ∧
    (cross_reference "9.0" srcsC3).agreement ≠ 1 / 3 := by
  have h : (cross_reference "9.0" srcsC3).agreement = pyRound2 (1 / 3) := by
    simp +decide [cross_reference, foundValues, lookupFB, srcsC3, SOURCE_NAMES,
      conflictRecord, conflictAgreement, conflictSdk, conflictChosen]
  refine ⟨by decide, by decide, by decide, by decide, ?_, ?_⟩
  · rw [h]
    norm_num [pyRound2, pyRound2Int]
  · rw [h]
    norm_num [pyRound2, pyRound2Int]

/-- C3 (amended): the agreement field is the ratio (count of sources matching
the chosen value) / (count of reporting sources) rounded to two decimal places
(Python `round`); it lies in `[0,1]`, equals `1.0` exactly for `consensus` and
`single_source`, lies strictly between `0` and `1` for `conflict` (with the
program's eight-source configuration), and is `0.0` for `not_found`. -/
theorem C3_agreement_rounded (v : String) (srcs : List (String × SourceMap))
    (hkeys : srcs.map Prod.fst = SOURCE_NAMES) :
    (0 ≤ (cross_reference v srcs).agreement ∧ (cross_reference v srcs).agreement ≤ 1) ∧
    ((cross_reference v srcs).status = "not_found" →
       (cross_reference v srcs).agreement = 0) ∧
    (((cross_reference v srcs).status = "consensus" ∨
        (cross_reference v srcs).status = "single_source") →
       (cross_reference v srcs).agreement = 1) ∧
    ((cross_reference v srcs).status = "conflict" →
       ∃ x, (cross_reference v srcs).ios_sdk = some x ∧
         (cross_reference v srcs).agreement =
           pyRound2 ((((foundValues v srcs).filter (fun p => p.2 == x)).length : ℚ) /
             ((foundValues v srcs).length : ℚ)) ∧
         0 < (cross_reference v srcs).agreement ∧
         (cross_reference v srcs).agreement < 1) := by
  rcases hd : ((foundValues v srcs).map Prod.snd).dedup with _ | ⟨a, _ | ⟨b, t⟩⟩
  · rw [cross_reference_of_nil hd]
    refine ⟨⟨le_refl 0, by norm_num [notFoundRecord]⟩, fun _ => rfl, ?_, ?_⟩
    · intro hst
      rcases hst with hst | hst <;> simp [notFoundRecord] at hst
    · intro hst
      simp [notFoundRecord] at hst
  · rw [cross_reference_of_single hd]
    refine ⟨⟨?_, ?_⟩, ?_, fun _ => ?_, ?_⟩
    · show (0 : ℚ) ≤ pyRound2 1
      rw [pyRound2_one]; norm_num
    · show pyRound2 1 ≤ 1
      rw [pyRound2_one]
    · intro hst
      exfalso
      simp only [singleRecord] at hst
      split at hst <;> simp at hst
    · exact pyRound2_one
    · intro hst
      exfalso
      simp only [singleRecord] at hst
      split at hst <;> simp at hst
  · rw [cross_reference_of_two hd]
    have hne := fv_ne_nil_of_dedup_ne_nil v srcs (by rw [hd]; simp)
    -- counting bounds
    have hsub : List.Sublist (a :: b :: t) ((foundValues v srcs).map Prod.snd) := by
      rw [← hd]
      exact List.dedup_sublist _
    have hlen2 : 2 ≤ (foundValues v srcs).length := by
      have := hsub.length_le
      simp at this
      omega
    have hlen8 : (foundValues v srcs).length ≤ 8 := by
      have h1 : (foundValues v srcs).length ≤ srcs.length := by
        unfold foundValues
        exact List.length_filterMap_le _ _
      have h2 : srcs.length = 8 := by
        have := congrArg List.length hkeys
        simpa using this
      omega
    have hag1 : 1 ≤ ((foundValues v srcs).filter
        (fun p => p.2 == conflictSdk v srcs)).length := by
      have hmem := mem_of_lookup_eq_some (conflictSdk_lookup hne)
      have : (conflictChosen v srcs, conflictSdk v srcs) ∈
          (foundValues v srcs).filter (fun p => p.2 == conflictSdk v srcs) :=
        List.mem_filter.mpr ⟨hmem, by simp⟩
      have := List.length_pos.mpr (List.ne_nil_of_mem this)
      omega
    have haglt : ((foundValues v srcs).filter
        (fun p => p.2 == conflictSdk v srcs)).length < (foundValues v srcs).length := by
      -- some reported value differs from the chosen one
      have hnd := List.nodup_dedup ((foundValues v srcs).map Prod.snd)
      rw [hd, List.nodup_cons] at hnd
      have hab : a ≠ b := fun e => hnd.1 (by rw [e]; simp)
      have hamem : a ∈ (foundValues v srcs).map Prod.snd :=
        List.mem_dedup.mp (by rw [hd]; simp)
      have hbmem : b ∈ (foundValues v srcs).map Prod.snd :=
        List.mem_dedup.mp (by rw [hd]; simp)
      by_cases hca : a = conflictSdk v srcs
      · obtain ⟨p, hp, hpv⟩ := List.mem_map.mp hbmem
        refine filter_length_lt _ _ p hp ?_
        simp only [beq_iff_eq]
        rw [hpv, ← hca]
        exact fun e => hab e.symm
      · obtain ⟨p, hp, hpv⟩ := List.mem_map.mp hamem
        refine filter_length_lt _ _ p hp ?_
        simp only [beq_iff_eq]
        rw [hpv]
        exact hca
    set nA := ((foundValues v srcs).filter
        (fun p => p.2 == conflictSdk v srcs)).length with hnA
    set L := (foundValues v srcs).length with hL
    have hLpos : (0 : ℚ) < (L : ℚ) := by exact_mod_cast Nat.lt_of_lt_of_le (by norm_num) hlen2
    have hratio_lo : (1 : ℚ) / 8 ≤ (nA : ℚ) / (L : ℚ) := by
      rw [div_le_div_iff₀ (by norm_num) hLpos]
      have h8 : 1 * L ≤ nA * 8 := by omega
      exact_mod_cast h8
    have hratio_hi : (nA : ℚ) / (L : ℚ) ≤ 7 / 8 := by
      rw [div_le_div_iff₀ hLpos (by norm_num)]
      have h8 : nA * 8 ≤ 7 * L := by omega
      exact_mod_cast h8
    have hagr : conflictAgreement v srcs = (nA : ℚ) / (L : ℚ) := conflict_agreement_eq hne
    refine ⟨⟨?_, ?_⟩, ?_, ?_, fun _ => ?_⟩
    · show (0 : ℚ) ≤ pyRound2 (conflictAgreement v srcs)
      exact le_of_lt (by rw [hagr]; exact pyRound2_pos hratio_lo)
    · show pyRound2 (conflictAgreement v srcs) ≤ 1
      exact le_of_lt (by rw [hagr]; exact pyRound2_lt_one hratio_hi)
    · intro hst
      simp [conflictRecord] at hst
    · intro hst
      exfalso
      rcases hst with hst | hst <;> simp [conflictRecord] at hst
    · refine ⟨conflictSdk v srcs, rfl, ?_, ?_, ?_⟩
      · show pyRound2 (conflictAgreement v srcs) = _
        rw [hagr]
      · show (0 : ℚ) < pyRound2 (conflictAgreement v srcs)
        rw [hagr]
        exact pyRound2_pos hratio_lo
      · show pyRound2 (conflictAgreement v srcs) < 1
        rw [hagr]
        exact pyRound2_lt_one hratio_hi

/-- Witness for the amended C3 at a concrete three-source conflict. -/
theorem C3_witness :
    (cross_reference "9.0" srcsC3).status = "conflict" ∧
    (∃ x, (cross_reference "9.0" srcsC3).ios_sdk = some x ∧
       (cross_reference "9.0" srcsC3).agreement =
         pyRound2 ((((foundValues "9.0" srcsC3).filter (fun p => p.2 == x)).length : ℚ) /
           ((foundValues "9.0" srcsC3).length : ℚ)) ∧
       0 < (cross_reference "9.0" srcsC3).agreement ∧
       (cross_reference "9.0" srcsC3).agreement < 1) := by
  refine ⟨by decide, ?_⟩
  exact (C3_agreement_rounded "9.0" srcsC3 (by decide)).2.2.2 (by decide)

/-- C4 (code bug): with every source empty and no external enumeration, the
run aborts before reconciliation — but `sys.exit` is called with the error
message STRING, which makes the process exit status `1`, identical to the
"changed" exit status and contradicting the module docstring's
"EXIT CODES: ... 2+ — fatal error". -/
theorem C4_empty_universe_exit :
    buildUniverse [] emptySources = [] ∧
    main_exit [] emptySources PrevMap.missing =
      ExitOutcome.fatalMessage "ERROR: No Xcode versions found from any source. Check network." ∧
    exitStatus (main_exit [] emptySources PrevMap.missing) = 1 ∧
    exitStatus (ExitOutcome.code 1) = 1 := by
  refine ⟨by decide, ?_, ?_, rfl⟩
  · unfold main_exit
    rw [if_pos (by decide)]
  · unfold main_exit
    rw [if_pos (by decide)]
    rfl

/-- C5: for every source map and version with exactly three dot-separated
components, a failed direct lookup retries with the first two components and
contributes that value; consequently a record has status `not_found` iff no
source contributed a value either directly or via this fallback. -/
theorem C5_major_minor_fallback (m : SourceMap) (v : String) :
    ((splitDots v).length = 3 → m.lookup v = none →
       lookupFB m v = m.lookup (joinDots ((splitDots v).take 2))) ∧
    (∀ srcs : List (String × SourceMap),
       ((cross_reference v srcs).status = "not_found" ↔
          ∀ p ∈ srcs, lookupFB p.2 v = none)) := by
  constructor
  · intro h3 habs
    unfold lookupFB
    rw [habs, if_pos h3]
  · intro srcs
    rw [status_not_found_iff, foundValues_eq_nil_iff]

/-- Witness for C5 at the spec's scenario: `"12.5.1"` absent, `"12.5"` maps to
`"18.2"`, so the source contributes `"18.2"`. -/
theorem C5_witness :
    (splitDots "12.5.1").length = 3 ∧
    ([("12.5", "18.2")] : SourceMap).lookup "12.5.1" = none ∧
    lookupFB [("12.5", "18.2")] "12.5.1" =
      ([("12.5", "18.2")] : SourceMap).lookup (joinDots ((splitDots "12.5.1").take 2)) ∧
    lookupFB [("12.5", "18.2")] "12.5.1" = some "18.2" := by
  refine ⟨by decide, by decide, ?_, by decide⟩
  exact (C5_major_minor_fallback [("12.5", "18.2")] "12.5.1").1 (by decide) (by decide)

/-- Counterexample to C6 as stated: a record whose resolved SDK value is the
empty string is non-null, yet `_results_to_flat` omits it (Python truthiness
of `r.get("ios_sdk")`). -/
theorem C6_counterexample :
    (cross_reference "9.0" srcsC6).ios_sdk = some "" ∧
    (cross_reference "9.0" srcsC6).ios_sdk ≠ none ∧
    _results_to_flat [cross_reference "9.0" srcsC6] = [] := by
  refine ⟨by decide, by decide, ?_⟩
  unfold _results_to_flat
  rw [List.mergeSort_singleton]
  show flatStep [] (cross_reference "9.0" srcsC6) = []
  rw [flatStep_empty (by decide)]

/-- C6 (amended): every entry of the flat output is some record's resolved
value that is non-null and non-empty (Python truthiness), every record with a
non-null non-empty resolved value appears, the keys are ordered
oldest-to-newest by component-wise integer comparison of the dot-separated
parts, and a version string that fails to parse as all-integer components
sorts as `[0]` rather than raising. -/
theorem C6_flat_output (results : List ResRecord) :
    (∀ p ∈ _results_to_flat results,
       ∃ r ∈ results, r.xcode = p.1 ∧ r.ios_sdk = some p.2 ∧ p.2 ≠ "") ∧
    (∀ r ∈ results, ∀ s : String, r.ios_sdk = some s → s ≠ "" →
       r.xcode ∈ (_results_to_flat results).map Prod.fst) ∧
    ((_results_to_flat results).map Prod.fst).Pairwise
      (fun a b => verKeyLe (ver_key a) (ver_key b) = true) ∧
    (∀ w : String, (splitDots w).mapM pyInt? = none → ver_key w = [0]) := by
  refine ⟨?_, ?_, ?_, ?_⟩
  · intro p hp
    unfold _results_to_flat at hp
    rcases fold_mem _ _ _ hp with h | ⟨r, hr, h1, h2, h3⟩
    · simp at h
    · exact ⟨r, List.mem_mergeSort.mp hr, h1, h2, h3⟩
  · intro r hr s hio hs
    unfold _results_to_flat
    exact fold_key_of_mem _ [] r (List.mem_mergeSort.mpr hr) s hio hs
  · unfold _results_to_flat
    obtain ⟨d, hd, hsub⟩ := fold_keys_structure
      (results.mergeSort (fun a b => verKeyLe (ver_key a.xcode) (ver_key b.xcode))) []
    rw [hd]
    simp only [List.map_nil, List.nil_append]
    have hsorted : (results.mergeSort
        (fun a b => verKeyLe (ver_key a.xcode) (ver_key b.xcode))).Pairwise
        (fun a b => verKeyLe (ver_key a.xcode) (ver_key b.xcode) = true) :=
      List.sorted_mergeSort
        (fun (a b c : ResRecord) hab hbc => verKeyLe_trans (ver_key a.xcode)
          (ver_key b.xcode) (ver_key c.xcode) hab hbc)
        (fun (a b : ResRecord) => verKeyLe_total (ver_key a.xcode) (ver_key b.xcode))
        results
    have hmap : ((results.mergeSort
        (fun a b => verKeyLe (ver_key a.xcode) (ver_key b.xcode))).map
          (fun r => r.xcode)).Pairwise
        (fun a b => verKeyLe (ver_key a) (ver_key b) = true) := by
      rw [List.pairwise_map]
      exact hsorted
    exact hmap.sublist hsub
  · intro w h
    unfold ver_key
    rw [h]

/-- Witness for the amended C6: a real record appears in the flat output; the
comparison is numeric (`"9.2"` precedes `"10.0"`), and an unparseable version
sorts as `[0]`. -/
theorem C6_witness :
    (cross_reference "9.0" srcsC1).ios_sdk = some "17.2" ∧
    (cross_reference "9.0" srcsC1).xcode ∈
      (_results_to_flat [cross_reference "9.0" srcsC1]).map Prod.fst ∧
    verKeyLe (ver_key "9.2") (ver_key "10.0") = true ∧
    verKeyLe (ver_key "10.0") (ver_key "9.2") = false ∧
    ver_key "16.0-beta" = [0] := by
  refine ⟨by decide, ?_, by decide, by decide, ?_⟩
  · exact (C6_flat_output [cross_reference "9.0" srcsC1]).2.1
      (cross_reference "9.0" srcsC1) (List.mem_singleton.mpr rfl) "17.2"
      (by decide) (by decide)
  · exact (C6_flat_output []).2.2.2 "16.0-beta" (by decide)

/-- C7: whenever a record's resolved SDK value is present, some source
reported exactly that value for the version (directly or via the major.minor
fallback); the engine never synthesizes a value no source offered. -/
theorem C7_no_synthesized_value (v : String) (srcs : List (String × SourceMap))
    (x : String) (h : (cross_reference v srcs).ios_sdk = some x) :
    ∃ p ∈ srcs, lookupFB p.2 v = some x := by
  rcases hd : ((foundValues v srcs).map Prod.snd).dedup with _ | ⟨a, _ | ⟨b, t⟩⟩
  · rw [cross_reference_of_nil hd] at h
    simp [notFoundRecord] at h
  · rw [cross_reference_of_single hd] at h
    simp only [singleRecord, Option.some.injEq] at h
    have ha : a ∈ (foundValues v srcs).map Prod.snd :=
      List.mem_dedup.mp (by rw [hd]; simp)
    obtain ⟨p, hp, hpv⟩ := List.mem_map.mp ha
    obtain ⟨m, hm, hl⟩ := mem_foundValues.mp hp
    exact ⟨(p.1, m), hm, by rw [hl, hpv, h]⟩
  · rw [cross_reference_of_two hd] at h
    simp only [conflictRecord, Option.some.injEq] at h
    subst h
    have hne := fv_ne_nil_of_dedup_ne_nil v srcs (by rw [hd]; simp)
    have hlk := conflictSdk_lookup hne
    have hmem := mem_of_lookup_eq_some hlk
    obtain ⟨m, hm, hl⟩ := mem_foundValues.mp hmem
    exact ⟨(conflictChosen v srcs, m), hm, hl⟩

/-- Witness for C7 at a concrete conflict record. -/
theorem C7_witness :
    (cross_reference "9.0" srcsC1).ios_sdk = some "17.2" ∧
    (∃ p ∈ srcsC1, lookupFB p.2 "9.0" = some "17.2") := by
  refine ⟨by decide, ?_⟩
  exact C7_no_synthesized_value "9.0" srcsC1 "17.2" (by decide)

/-- C8: `_normalize_xcode_ver` appends `".0"` exactly when the input has no
dot, returns the input unchanged otherwise, and is idempotent. -/
theorem C8_normalize (v : String) :
    (¬ v.toList.contains '.' → _normalize_xcode_ver v = v ++ ".0") ∧
    (v.toList.contains '.' → _normalize_xcode_ver v = v) ∧
    _normalize_xcode_ver (_normalize_xcode_ver v) = _normalize_xcode_ver v := by
  refine ⟨?_, ?_, ?_⟩
  · intro h; unfold _normalize_xcode_ver; rw [if_neg h]
  · intro h; unfold _normalize_xcode_ver; rw [if_pos h]
  · have h := normalize_contains_dot v
    generalize _normalize_xcode_ver v = w at h ⊢
    unfold _normalize_xcode_ver
    rw [if_pos h]

/-- Witness for C8 at the bare major `"9"`. -/
theorem C8_witness :
    (¬ ("9" : String).toList.contains '.') ∧
    _normalize_xcode_ver "9" = "9" ++ ".0" ∧
    _normalize_xcode_ver (_normalize_xcode_ver "9") = _normalize_xcode_ver "9" := by
  exact ⟨by decide, (C8_normalize "9").1 (by decide), (C8_normalize "9").2.2⟩

/-- C9: the change verdict is `changed` when no previous mapping exists and
when the previous mapping fails to parse; otherwise it is `unchanged` exactly
when the two mappings agree as key→value maps (same lookups at every key,
ordering irrelevant). -/
theorem C9_change_detection :
    (∀ f, computeMapChanged PrevMap.missing f = true) ∧
    (∀ f, computeMapChanged PrevMap.unparsable f = true) ∧
    (∀ fold fnew, (fold.map Prod.fst).Nodup → (fnew.map Prod.fst).Nodup →
       (computeMapChanged (PrevMap.parsed fold) fnew = false ↔
          ∀ k, fold.lookup k = fnew.lookup k)) := by
  refine ⟨fun f => rfl, fun f => rfl, fun fold fnew ha hb => ?_⟩
  unfold computeMapChanged
  rw [Bool.not_eq_false']
  exact pyDictEq_iff ha hb

/-- Witness for C9: two equal mappings listed in different orders compare as
unchanged. -/
theorem C9_witness :
    computeMapChanged (PrevMap.parsed [("9.0", "17.2"), ("10.0", "18.0")])
      [("10.0", "18.0"), ("9.0", "17.2")] = false ∧
    ([("9.0", "17.2"), ("10.0", "18.0")] : List (String × String)).lookup "9.0" =
      ([("10.0", "18.0"), ("9.0", "17.2")] : List (String × String)).lookup "9.0" := by
  constructor
  · decide
  · exact ((C9_change_detection).2.2 _ _ (by decide) (by decide)).mp (by decide) "9.0"

/-- C10: `_normalize_source_keys` produces only keys containing a dot, each
entry is the normalisation of some input entry with its value unchanged, and
the value at each normalised key is the value of the FIRST input key (in
iteration order) normalising to it — later colliding keys are discarded. -/
theorem C10_normalize_source_keys (data : List (String × String)) :
    (∀ p ∈ _normalize_source_keys data, p.1.toList.contains '.') ∧
    (∀ p ∈ _normalize_source_keys data,
       ∃ q ∈ data, p.1 = _normalize_xcode_ver q.1 ∧ p.2 = q.2) ∧
    (∀ k, (_normalize_source_keys data).lookup k =
       (data.find? (fun p => _normalize_xcode_ver p.1 == k)).map Prod.snd) := by
  refine ⟨?_, ?_, ?_⟩
  · intro p hp
    rcases nsk_aux_mem data [] p hp with h | ⟨q, _, h1, _⟩
    · simp at h
    · rw [h1]; exact normalize_contains_dot q.1
  · intro p hp
    rcases nsk_aux_mem data [] p hp with h | h
    · simp at h
    · exact h
  · intro k
    have := nsk_aux_lookup data [] k
    simpa [_normalize_source_keys] using this

/-- Witness for C10: `"9"` and `"9.0"` collide; the first value wins. -/
theorem C10_witness :
    (_normalize_source_keys [("9", "17.0"), ("9.0", "99")]).lookup "9.0" = some "17.0" ∧
    ("9.0" : String).toList.contains '.' = true := by
  constructor
  · have h := (C10_normalize_source_keys [("9", "17.0"), ("9.0", "99")]).2.2 "9.0"
    rw [h]; decide
  · exact (C10_normalize_source_keys [("9", "17.0"), ("9.0", "99")]).1 ("9.0", "17.0")
      (by decide)

end MapSdks